import Mathlib

/-!
Verification of the Config Field Analysis Engine of `new-horizons-config-crawler`
(`src/analysis.ts`).

The engine is shallowly embedded:
* `Json` models a parsed JSON document as it appears in the JavaScript runtime
  (numbers restricted to integers, which covers every value the claims mention).
* JavaScript `Map`s and `Set`s are modelled as insertion-ordered association
  lists / duplicate-free lists, with `alSet`/`alGet?`/`listInsert` reproducing
  `Map.set`/`Map.get`/`Set.add` (replace-in-place keeps the key position;
  a new key is appended).
* `jsString` models JavaScript `String(v)` coercion (`String(null) = "null"`,
  objects become `"[object Object]"`, arrays join their elements with `","`).
* `extractFieldsFromJson`, `mergeFieldAnalysis`, `analyzeSingleConfigType`,
  `analyzeMultiConfigType`, `buildPerModSummaries`, `buildPerFieldSummaries`
  are transcribed from the identically-named functions in `src/analysis.ts`.
* JavaScript `Array.prototype.sort` / `localeCompare` sorting is modelled as
  insertion sort under code-point lexicographic order (`strLe`); every list the
  engine sorts is duplicate-free in its sort key, so the sorted result is the
  unique sorted permutation and the choice of sorting algorithm is immaterial.
-/

namespace ConfigCrawler

/-- A parsed JSON value as held by the JavaScript runtime. -/
inductive Json where
  | null : Json
  | bool : Bool → Json
  | num : Int → Json
  | str : String → Json
  | arr : List Json → Json
  | obj : List (String × Json) → Json

mutual

/-- JavaScript `String(v)` coercion. -/
def jsString : Json → String
  | .null => "null"
  | .bool true => "true"
  | .bool false => "false"
  | .num n => toString n
  | .str s => s
  | .arr xs => String.intercalate "," (jsStringElems xs)
  | .obj _ => "[object Object]"

/-- Element coercion used by `Array.prototype.join`: `null` becomes `""`. -/
def jsStringElems : List Json → List String
  | [] => []
  | x :: rest =>
    (match x with
     | .null => ""
     | v => jsString v) :: jsStringElems rest

end

/-- The `fieldType` tag of the `FieldAnalysis` interface in `src/analysis.ts`. -/
inductive FieldType where
  | primitive
  | object
  | array
deriving DecidableEq

/-- The `FieldAnalysis` interface: per-mod value sets, all distinct values,
and the recorded field type.  JS `Map`/`Set` are insertion-ordered lists. -/
structure FieldAnalysis where
  modValues : List (String × List String)
  distinctValues : List String
  fieldType : FieldType
deriving DecidableEq

/-- `Map<string, FieldAnalysis>` as an insertion-ordered association list. -/
abbrev FieldsMap := List (String × FieldAnalysis)

/-- `Set.add`: append the value unless already present (insertion order kept). -/
def listInsert (l : List String) (v : String) : List String :=
  if l.contains v then l else l ++ [v]

/-- `Map.get`: first entry with the given key. -/
def alGet? {α : Type} (l : List (String × α)) (k : String) : Option α :=
  match l with
  | [] => none
  | (k1, v) :: rest => if k1 == k then some v else alGet? rest k

/-- `Map.set`: replace in place if the key exists, else append. -/
def alSet {α : Type} (l : List (String × α)) (k : String) (v : α) : List (String × α) :=
  match l with
  | [] => [(k, v)]
  | (k1, v1) :: rest => if k1 == k then (k, v) :: rest else (k1, v1) :: alSet rest k v

/-- Add every element of `vs` to the set `l` (the `for ... add` loops). -/
def listUnionInto (l : List String) (vs : List String) : List String :=
  vs.foldl listInsert l

/-- `item !== null && typeof item === 'object'` (arrays and objects). -/
def isComposite : Json → Bool
  | .arr _ => true
  | .obj _ => true
  | _ => false

/-- `item === null || typeof item !== 'object'`. -/
def isScalarOrNull (j : Json) : Bool := !isComposite j

/-- JavaScript truthiness of a JSON value (the `if (!configData) continue` guard). -/
def jsTruthy : Json → Bool
  | .null => false
  | .bool b => b
  | .num n => n != 0
  | .str s => s != ""
  | .arr _ => true
  | .obj _ => true

/-- The `mergedFields` accumulation loop of the array-of-objects branch
(lines 131-143 of `src/analysis.ts`): union each item's field values per key,
keeping the first `fieldType` seen for the key. -/
def mergeItemFields (merged : FieldsMap) (itemFields : FieldsMap) : FieldsMap :=
  itemFields.foldl (fun m kv =>
    let cur := match alGet? m kv.1 with
      | some c => c
      | none => { modValues := [], distinctValues := [], fieldType := kv.2.fieldType }
    alSet m kv.1
      { cur with distinctValues := listUnionInto cur.distinctValues kv.2.distinctValues }) merged

/-- The scalar-collection loop of the array branch (lines 161-165):
`String(item)` of every element that is not `null`, deduplicated in order.
Note the source iterates ALL elements here, composite ones included. -/
def scalarVals (xs : List Json) : List String :=
  xs.foldl (fun acc item =>
    match item with
    | .null => acc
    | v => listInsert acc (jsString v)) []

/-- Child path computation of the object branch (lines 176-181), including the
`default-config`/`settings` collapsing hack. -/
def objChildPath (configTypeName fieldPath key : String) : String :=
  if fieldPath == "settings" && configTypeName == "default-config" then
    fieldPath ++ ".{settingName}"
  else if fieldPath == "" then key
  else fieldPath ++ "." ++ key

mutual

/-- `extractFieldsFromJson` of `src/analysis.ts` (lines 92-207).
`null` returns the empty map; a scalar emits one `primitive` entry at the
current path (`[root]` when empty); an array runs the array-of-objects branch
then the scalar branch; an object walks its entries via `extractEntries`. -/
def extractFieldsFromJson (obj : Json) (configTypeName : String) (fieldPath : String) : FieldsMap :=
  match obj with
  | .null => []
  | .bool b =>
    [(if fieldPath == "" then "[root]" else fieldPath,
      { modValues := [], distinctValues := [jsString (.bool b)], fieldType := .primitive })]
  | .num n =>
    [(if fieldPath == "" then "[root]" else fieldPath,
      { modValues := [], distinctValues := [jsString (.num n)], fieldType := .primitive })]
  | .str s =>
    [(if fieldPath == "" then "[root]" else fieldPath,
      { modValues := [], distinctValues := [jsString (.str s)], fieldType := .primitive })]
  | .arr xs =>
    let hasObjects := xs.any isComposite
    let hasPrimitives := xs.any isScalarOrNull
    let m1 : FieldsMap :=
      if hasObjects && !xs.isEmpty then
        let mergedFields := extractArrObjects xs configTypeName []
        mergedFields.foldl (fun m kv =>
          alSet m (if fieldPath == "" then kv.1 else fieldPath ++ "." ++ kv.1) kv.2) []
      else []
    if hasPrimitives then
      let vs := scalarVals xs
      if !vs.isEmpty then
        alSet m1 (if fieldPath == "" then "[root]" else fieldPath)
          { modValues := [], distinctValues := vs, fieldType := .array }
      else m1
    else m1
  | .obj entries => extractEntries entries configTypeName fieldPath []

/-- The per-item loop of the array-of-objects branch (lines 128-145): only
plain (non-array) objects are recursed into, each rooted at path `""`. -/
def extractArrObjects (items : List Json) (configTypeName : String) (merged : FieldsMap) :
    FieldsMap :=
  match items with
  | [] => merged
  | item :: rest =>
    let merged1 := match item with
      | .obj entries =>
        mergeItemFields merged (extractFieldsFromJson (.obj entries) configTypeName "")
      | _ => merged
    extractArrObjects rest configTypeName merged1

/-- The object-entries loop (lines 175-204): a `null` child emits `{"null"}`,
a composite child is recursed into and its entries `Map.set` into the result,
a scalar child emits its string form.  Every write is `Map.set`, so a later
entry at an already-present path replaces the earlier one. -/
def extractEntries (entries : List (String × Json)) (configTypeName : String)
    (fieldPath : String) (acc : FieldsMap) : FieldsMap :=
  match entries with
  | [] => acc
  | (key, value) :: rest =>
    let newPath := objChildPath configTypeName fieldPath key
    let acc1 := match value with
      | .null =>
        alSet acc newPath { modValues := [], distinctValues := ["null"], fieldType := .primitive }
      | .arr a =>
        (extractFieldsFromJson (.arr a) configTypeName newPath).foldl
          (fun m kv => alSet m kv.1 kv.2) acc
      | .obj o =>
        (extractFieldsFromJson (.obj o) configTypeName newPath).foldl
          (fun m kv => alSet m kv.1 kv.2) acc
      | v =>
        alSet acc newPath
          { modValues := [], distinctValues := [jsString v], fieldType := .primitive }
    extractEntries rest configTypeName fieldPath acc1

end

/-- `mergeFieldAnalysis` (lines 213-227): ensure the mod's value set exists,
then add every extracted value to both the mod's set and `distinctValues`.
The recorded `fieldType` is left untouched. -/
def mergeFieldAnalysis (combinedAnalysis modAnalysis : FieldAnalysis) (modName : String) :
    FieldAnalysis :=
  let mv0 := match alGet? combinedAnalysis.modValues modName with
    | some s => s
    | none => []
  { combinedAnalysis with
    modValues :=
      alSet combinedAnalysis.modValues modName (listUnionInto mv0 modAnalysis.distinctValues),
    distinctValues := listUnionInto combinedAnalysis.distinctValues modAnalysis.distinctValues }

/-- One iteration of the per-field merge loop of `analyzeSingleConfigType` /
`analyzeMultiConfigType` (lines 25-34 / 58-67): create the aggregate entry with
the extracted `fieldType` if absent, then `mergeFieldAnalysis` into it. -/
def mergeStep (m : FieldsMap) (modName fieldPath : String) (analysis : FieldAnalysis) :
    FieldsMap :=
  let combined := match alGet? m fieldPath with
    | some c => c
    | none => { modValues := [], distinctValues := [], fieldType := analysis.fieldType }
  alSet m fieldPath (mergeFieldAnalysis combined analysis modName)

/-- Merge one extracted result for one mod into the aggregate map. -/
def mergeModFields (m : FieldsMap) (modName : String) (modFields : FieldsMap) : FieldsMap :=
  modFields.foldl (fun acc kv => mergeStep acc modName kv.1 kv.2) m

/-- `analyzeSingleConfigType` (lines 13-38), up to the point where the finished
`fieldAnalysisMap` is handed to the summary writer: skip falsy documents,
extract, merge under the mod's name. -/
def analyzeSingleConfigType (configStore : List (String × Json)) (configTypeName : String) :
    FieldsMap :=
  configStore.foldl (fun m kv =>
    if jsTruthy kv.2 then
      mergeModFields m kv.1 (extractFieldsFromJson kv.2 configTypeName "")
    else m) []

/-- `analyzeMultiConfigType` (lines 44-72): each mod owns several documents
keyed by file path; every non-falsy document is extracted and merged under the
mod's name (the file path is never used in paths). -/
def analyzeMultiConfigType (configStore : List (String × List (String × Json)))
    (configTypeName : String) : FieldsMap :=
  configStore.foldl (fun m modEntry =>
    modEntry.2.foldl (fun m2 fileEntry =>
      if jsTruthy fileEntry.2 then
        mergeModFields m2 modEntry.1 (extractFieldsFromJson fileEntry.2 configTypeName "")
      else m2) m) []

/-- Code-point lexicographic comparison of character lists (computable model of
the string ordering used by JavaScript array sorting). -/
def charListLe : List Char → List Char → Bool
  | [], _ => true
  | _ :: _, [] => false
  | a :: as, b :: bs =>
    if a.toNat < b.toNat then true
    else if b.toNat < a.toNat then false
    else charListLe as bs

/-- Code-point lexicographic string comparison. -/
def strLe (a b : String) : Bool := charListLe a.data b.data

/-- The string order as a relation, for `List.insertionSort`/`List.Sorted`. -/
def strLeRel : String → String → Prop := fun a b => strLe a b = true

instance : DecidableRel strLeRel := fun a b => inferInstanceAs (Decidable (strLe a b = true))

/-- Sort a list of strings (`Array.from(set).sort()`). -/
def sortStrings (l : List String) : List String := l.insertionSort strLeRel

/-- The `PerModFieldInfo` interface. -/
structure PerModFieldInfo where
  fieldPath : String
  fieldType : FieldType
  values : List String
deriving DecidableEq

/-- The `PerFieldModInfo` interface. -/
structure PerFieldModInfo where
  modName : String
  values : List String
deriving DecidableEq

/-- The `PerFieldSummary` interface. -/
structure PerFieldSummary where
  fieldType : FieldType
  mods : List PerFieldModInfo
  distinctValues : List String
deriving DecidableEq

/-- Row ordering of the per-mod summary sort (`a.fieldPath.localeCompare(b.fieldPath)`). -/
def rowLeRel : PerModFieldInfo → PerModFieldInfo → Prop :=
  fun a b => strLe a.fieldPath b.fieldPath = true

instance : DecidableRel rowLeRel :=
  fun a b => inferInstanceAs (Decidable (strLe a.fieldPath b.fieldPath = true))

/-- Row ordering of the per-field summary mod sort (`a.modName.localeCompare(b.modName)`). -/
def modInfoLeRel : PerFieldModInfo → PerFieldModInfo → Prop :=
  fun a b => strLe a.modName b.modName = true

instance : DecidableRel modInfoLeRel :=
  fun a b => inferInstanceAs (Decidable (strLe a.modName b.modName = true))

/-- `buildPerModSummaries` (lines 232-256): group rows by mod in encounter
order, each row carrying its sorted value list, then sort each mod's rows by
field path. -/
def buildPerModSummaries (fieldAnalysisMap : FieldsMap) :
    List (String × List PerModFieldInfo) :=
  let raw := fieldAnalysisMap.foldl (fun acc fieldEntry =>
    fieldEntry.2.modValues.foldl (fun acc2 modEntry =>
      let cur := match alGet? acc2 modEntry.1 with
        | some rows => rows
        | none => []
      alSet acc2 modEntry.1
        (cur ++ [{ fieldPath := fieldEntry.1,
                   fieldType := fieldEntry.2.fieldType,
                   values := sortStrings modEntry.2 }])) acc) []
  raw.map (fun modEntry => (modEntry.1, modEntry.2.insertionSort rowLeRel))

/-- `buildPerFieldSummaries` (lines 261-284): one summary per field, mods
sorted by name with sorted values, plus the sorted distinct-value list. -/
def buildPerFieldSummaries (fieldAnalysisMap : FieldsMap) :
    List (String × PerFieldSummary) :=
  fieldAnalysisMap.map (fun fieldEntry =>
    (fieldEntry.1,
     { fieldType := fieldEntry.2.fieldType,
       mods := (fieldEntry.2.modValues.map (fun modEntry =>
         { modName := modEntry.1, values := sortStrings modEntry.2 })).insertionSort modInfoLeRel,
       distinctValues := sortStrings fieldEntry.2.distinctValues }))

/-- The single-document pipeline: extract and merge every document, then build
both persisted summaries (`writeAnalysisSummaries` serializes exactly these). -/
def runSinglePipeline (configStore : List (String × Json)) (configTypeName : String) :
    (List (String × List PerModFieldInfo)) × (List (String × PerFieldSummary)) :=
  let m := analyzeSingleConfigType configStore configTypeName
  (buildPerModSummaries m, buildPerFieldSummaries m)

/-- The multi-document pipeline, analogously. -/
def runMultiPipeline (configStore : List (String × List (String × Json)))
    (configTypeName : String) :
    (List (String × List PerModFieldInfo)) × (List (String × PerFieldSummary)) :=
  let m := analyzeMultiConfigType configStore configTypeName
  (buildPerModSummaries m, buildPerFieldSummaries m)

/-! ### Association-list and set lemmas -/

theorem alGet?_alSet_self {α : Type} (m : List (String × α)) (k : String) (v : α) :
    alGet? (alSet m k v) k = some v := by
  induction m with
  | nil => simp [alSet, alGet?]
  | cons h t ih =>
    obtain ⟨k1, v1⟩ := h
    by_cases hk : k1 = k
    · subst hk
      simp [alSet, alGet?]
    · simp [alSet, alGet?, hk, ih]

theorem alGet?_alSet_ne {α : Type} (m : List (String × α)) {k k2 : String} (v : α)
    (h : k2 ≠ k) : alGet? (alSet m k v) k2 = alGet? m k2 := by
  induction m with
  | nil => simp [alSet, alGet?, Ne.symm h]
  | cons hd t ih =>
    obtain ⟨k1, v1⟩ := hd
    by_cases hk : k1 = k
    · subst hk
      simp [alSet, alGet?, Ne.symm h]
    · simp [alSet, alGet?, hk, ih]

theorem alSet_eq_of_alGet? {α : Type} {m : List (String × α)} {k : String} {v : α}
    (h : alGet? m k = some v) : alSet m k v = m := by
  induction m with
  | nil => simp [alGet?] at h
  | cons hd t ih =>
    obtain ⟨k1, v1⟩ := hd
    by_cases hk : k1 = k
    · subst hk
      simp [alGet?] at h
      simp [alSet, h]
    · simp [alGet?, hk] at h
      simp [alSet, hk, ih h]

theorem mem_alSet {α : Type} {m : List (String × α)} {k : String} {v : α} {e : String × α}
    (h : e ∈ alSet m k v) : e ∈ m ∨ e = (k, v) := by
  induction m with
  | nil =>
    simp [alSet] at h
    exact Or.inr h
  | cons hd t ih =>
    obtain ⟨k1, v1⟩ := hd
    by_cases hk : k1 = k
    · subst hk
      simp [alSet] at h
      rcases h with h | h
      · exact Or.inr h
      · exact Or.inl (List.mem_cons_of_mem _ h)
    · simp [alSet, hk] at h
      rcases h with h | h
      · exact Or.inl (by simp [h])
      · rcases ih h with h2 | h2
        · exact Or.inl (List.mem_cons_of_mem _ h2)
        · exact Or.inr h2

theorem alGet?_mem {α : Type} {m : List (String × α)} {k : String} {v : α}
    (h : alGet? m k = some v) : (k, v) ∈ m := by
  induction m with
  | nil => simp [alGet?] at h
  | cons hd t ih =>
    obtain ⟨k1, v1⟩ := hd
    by_cases hk : k1 = k
    · subst hk
      simp [alGet?] at h
      simp [h]
    · simp [alGet?, hk] at h
      exact List.mem_cons_of_mem _ (ih h)

theorem contains_iff_mem {l : List String} {v : String} : l.contains v = true ↔ v ∈ l := by
  simp [List.contains, List.elem_iff]

theorem mem_listInsert_iff {l : List String} {v w : String} :
    w ∈ listInsert l v ↔ w ∈ l ∨ w = v := by
  unfold listInsert
  by_cases h : l.contains v
  · rw [if_pos h]
    rw [contains_iff_mem] at h
    constructor
    · exact Or.inl
    · rintro (hw | rfl)
      · exact hw
      · exact h
  · rw [if_neg h]
    simp

theorem listInsert_eq_of_mem {l : List String} {v : String} (h : v ∈ l) :
    listInsert l v = l := by
  unfold listInsert
  rw [if_pos (contains_iff_mem.2 h)]

theorem listInsert_ne_nil {l : List String} {v : String} : listInsert l v ≠ [] := by
  unfold listInsert
  by_cases h : l.contains v
  · rw [if_pos h]
    intro hnil
    subst hnil
    simp [contains_iff_mem] at h
  · rw [if_neg h]
    simp

theorem mem_listUnionInto_iff {vs l : List String} {w : String} :
    w ∈ listUnionInto l vs ↔ w ∈ l ∨ w ∈ vs := by
  induction vs generalizing l with
  | nil => simp [listUnionInto]
  | cons v rest ih =>
    show w ∈ listUnionInto (listInsert l v) rest ↔ _
    rw [ih, mem_listInsert_iff]
    constructor
    · rintro ((hw | rfl) | hw)
      · exact Or.inl hw
      · exact Or.inr (List.mem_cons_self _ _)
      · exact Or.inr (List.mem_cons_of_mem _ hw)
    · rintro (hw | hw)
      · exact Or.inl (Or.inl hw)
      · rcases List.mem_cons.1 hw with rfl | hw
        · exact Or.inl (Or.inr rfl)
        · exact Or.inr hw

theorem listUnionInto_eq_of_subset {vs l : List String} (h : ∀ v ∈ vs, v ∈ l) :
    listUnionInto l vs = l := by
  induction vs generalizing l with
  | nil => rfl
  | cons v rest ih =>
    show listUnionInto (listInsert l v) rest = l
    rw [listInsert_eq_of_mem (h v (List.mem_cons_self _ _))]
    exact ih fun w hw => h w (List.mem_cons_of_mem _ hw)

/-! ### The string order is total and transitive -/

theorem charListLe_total : ∀ as bs : List Char, charListLe as bs = true ∨ charListLe bs as = true
  | [], _ => Or.inl rfl
  | _ :: _, [] => Or.inr rfl
  | a :: as, b :: bs => by
    by_cases hab : a.toNat < b.toNat
    · exact Or.inl (by simp [charListLe, hab])
    · by_cases hba : b.toNat < a.toNat
      · exact Or.inr (by simp [charListLe, hba])
      · rcases charListLe_total as bs with h | h
        · exact Or.inl (by simp [charListLe, hab, hba, h])
        · exact Or.inr (by simp [charListLe, hab, hba, h])

theorem charListLe_trans : ∀ as bs cs : List Char,
    charListLe as bs = true → charListLe bs cs = true → charListLe as cs = true
  | [], _, _ => fun _ _ => rfl
  | a :: as, [], _ => by intro h; simp [charListLe] at h
  | _ :: _, _ :: _, [] => by intro _ h; simp [charListLe] at h
  | a :: as, b :: bs, c :: cs => by
    intro h1 h2
    by_cases hab : a.toNat < b.toNat
    · by_cases hbc : b.toNat < c.toNat
      · simp [charListLe, show a.toNat < c.toNat by omega]
      · by_cases hcb : c.toNat < b.toNat
        · simp [charListLe, hbc, hcb] at h2
        · simp [charListLe, show a.toNat < c.toNat by omega]
    · by_cases hba : b.toNat < a.toNat
      · simp [charListLe, hab, hba] at h1
      · by_cases hbc : b.toNat < c.toNat
        · simp [charListLe, show a.toNat < c.toNat by omega]
        · by_cases hcb : c.toNat < b.toNat
          · simp [charListLe, hbc, hcb] at h2
          · simp [charListLe, hab, hba] at h1
            simp [charListLe, hbc, hcb] at h2
            simp [charListLe, show ¬ a.toNat < c.toNat by omega,
              show ¬ c.toNat < a.toNat by omega]
            exact charListLe_trans as bs cs h1 h2

instance : IsTotal String strLeRel :=
  ⟨fun a b => charListLe_total a.data b.data⟩

instance : IsTrans String strLeRel :=
  ⟨fun a b c h1 h2 => charListLe_trans a.data b.data c.data h1 h2⟩

instance : IsTotal PerModFieldInfo rowLeRel :=
  ⟨fun a b => charListLe_total a.fieldPath.data b.fieldPath.data⟩

instance : IsTrans PerModFieldInfo rowLeRel :=
  ⟨fun a b c h1 h2 => charListLe_trans a.fieldPath.data b.fieldPath.data c.fieldPath.data h1 h2⟩

instance : IsTotal PerFieldModInfo modInfoLeRel :=
  ⟨fun a b => charListLe_total a.modName.data b.modName.data⟩

instance : IsTrans PerFieldModInfo modInfoLeRel :=
  ⟨fun a b c h1 h2 => charListLe_trans a.modName.data b.modName.data c.modName.data h1 h2⟩

theorem sorted_sortStrings (l : List String) : List.Sorted strLeRel (sortStrings l) :=
  List.sorted_insertionSort strLeRel l

theorem mem_sortStrings {l : List String} {a : String} : a ∈ sortStrings l ↔ a ∈ l :=
  List.mem_insertionSort strLeRel

/-! ### Properties of the aggregate -/

/-- Value set recorded for a path by an extraction result (empty if absent). -/
def fieldValuesAt (m : FieldsMap) (p : String) : List String :=
  match alGet? m p with
  | some a => a.distinctValues
  | none => []

/-- The union invariant of the spec: for every field of the aggregate,
`distinctValues` (the spec's `allValues`) holds exactly the values found in
some mod's per-mod value set (`perEntityValues[entity]`, i.e. `Map.get`). -/
def UnionInvariant (m : FieldsMap) : Prop :=
  ∀ p a, alGet? m p = some a →
    ∀ v, v ∈ a.distinctValues ↔ ∃ mod vs, alGet? a.modValues mod = some vs ∧ v ∈ vs

/-- The aggregate already absorbs the extracted analysis `a` for `(modName, p)`:
the entry exists, the mod's set exists and contains all of `a`'s values, and so
does `distinctValues`.  `mergeStep` is a no-op exactly in this situation. -/
def Saturated (m : FieldsMap) (modName p : String) (a : FieldAnalysis) : Prop :=
  ∃ c, alGet? m p = some c ∧
    (∃ s, alGet? c.modValues modName = some s ∧ ∀ v ∈ a.distinctValues, v ∈ s) ∧
    ∀ v ∈ a.distinctValues, v ∈ c.distinctValues

/-- Sortedness of a persisted per-mod summary: each mod's rows are ordered by
field path and every row's value list is ordered. -/
def PerModSummariesSorted (s : List (String × List PerModFieldInfo)) : Prop :=
  ∀ e ∈ s, List.Sorted rowLeRel e.2 ∧ ∀ r ∈ e.2, List.Sorted strLeRel r.values

/-- Sortedness of a persisted per-field summary: mods ordered by name, all
value lists ordered. -/
def PerFieldSummariesSorted (s : List (String × PerFieldSummary)) : Prop :=
  ∀ e ∈ s, List.Sorted modInfoLeRel e.2.mods ∧ List.Sorted strLeRel e.2.distinctValues ∧
    ∀ mi ∈ e.2.mods, List.Sorted strLeRel mi.values

/-! ### Claim C1 -/

/-- Claim C1: extracting `{"settings": {"volume": 5, "brightness": 7}}` under
config type `default-config` is claimed to yield a single field
`settings.{settingName}` with value set `{"5","7"}`; under any other config
type name it yields the two fields `settings.volume` (`{"5"}`) and
`settings.brightness` (`{"7"}`).  The code violates the first half: because
both dynamic keys collapse to the same path and each primitive child performs
a fresh `Map.set`, the later key `brightness` overwrites the earlier one, so
the value set is `{"7"}`, not `{"5","7"}` — contradicting the source's own
`HACK` comment ("we want to aggregate them").  This theorem evaluates the code
at the failing input and proves the (correct) second half of the claim. -/
theorem c1_settings_collapsing_code_eval :
    extractFieldsFromJson
        (.obj [("settings", .obj [("volume", .num 5), ("brightness", .num 7)])])
        "default-config" "" =
      [("settings.{settingName}", ⟨[], ["7"], .primitive⟩)] ∧
    ∀ configTypeName : String, configTypeName ≠ "default-config" →
      extractFieldsFromJson
          (.obj [("settings", .obj [("volume", .num 5), ("brightness", .num 7)])])
          configTypeName "" =
        [("settings.volume", ⟨[], ["5"], .primitive⟩),
         ("settings.brightness", ⟨[], ["7"], .primitive⟩)] := by
  refine ⟨by decide, ?_⟩
  intro configTypeName h
  have hb : (configTypeName == "default-config") = false := by
    simpa using h
  simp [extractFieldsFromJson, extractEntries, objChildPath, hb, jsString, alSet, alGet?]
  exact ⟨by decide, by decide⟩

/-- Witness for `c1_settings_collapsing_code_eval` at the concrete config type
name `"manifest"`. -/
theorem c1_settings_collapsing_code_eval_witness :
    extractFieldsFromJson
        (.obj [("settings", .obj [("volume", .num 5), ("brightness", .num 7)])])
        "manifest" "" =
      [("settings.volume", ⟨[], ["5"], .primitive⟩),
       ("settings.brightness", ⟨[], ["7"], .primitive⟩)] :=
  c1_settings_collapsing_code_eval.2 "manifest" (by decide)

/-! ### Claim C3 -/

/-- Claim C3 counterexample: extracting a `null` input value at path `"a"`
(under config type `"manifest"`) emits NO entry at all — the function returns
the empty map (the early return at lines 99-101) — not "exactly one entry at
that path with kind primitive and value set `{"null"}`" as claimed. -/
theorem c3_null_input_counterexample :
    extractFieldsFromJson Json.null "manifest" "a" = [] ∧
    alGet? (extractFieldsFromJson Json.null "manifest" "a") "a" = none :=
  ⟨rfl, rfl⟩

/-- Claim C3 amended: extracting a `null` (or absent) input value yields the
empty map, for every path and config type name; it is a `null`-valued KEY of
an object that emits exactly one entry, at the child path, with kind
`primitive` and value set `{"null"}` (lines 183-189). -/
theorem c3_null_handling_amended :
    ∀ (configTypeName fieldPath key : String),
      extractFieldsFromJson Json.null configTypeName fieldPath = [] ∧
      extractFieldsFromJson (.obj [(key, .null)]) configTypeName fieldPath =
        [(objChildPath configTypeName fieldPath key, ⟨[], ["null"], .primitive⟩)] := by
  intro configTypeName fieldPath key
  exact ⟨rfl, rfl⟩

/-! ### Claim C6 -/

/-- Claim C6 counterexample: for `{"tags": [1, {"k":2}, null]}` the scalar
branch stringifies EVERY non-null element, including the object, so the value
set of `tags` contains `"[object Object]"` — it is not `{"1"}` as claimed. -/
theorem c6_mixed_array_counterexample :
    "[object Object]" ∈ fieldValuesAt
      (extractFieldsFromJson
        (.obj [("tags", .arr [.num 1, .obj [("k", .num 2)], .null])]) "manifest" "")
      "tags" ∧
    ("[object Object]" : String) ≠ "1" := by
  exact ⟨by decide, by decide⟩

/-- Claim C6 amended: under any config type name, `{"tags": [1, {"k":2}, null]}`
yields exactly the two field paths `tags.k` (kind `primitive`, values `{"2"}`)
and `tags` (kind `array`, values `{"1", "[object Object]"}`): both branches of
the mixed array fire, nulls are dropped, and the composite element is both
recursed into and stringified into the scalar value set. -/
theorem c6_mixed_array_amended :
    ∀ configTypeName : String,
      extractFieldsFromJson
          (.obj [("tags", .arr [.num 1, .obj [("k", .num 2)], .null])]) configTypeName "" =
        [("tags.k", ⟨[], ["2"], .primitive⟩),
         ("tags", ⟨[], ["1", "[object Object]"], .array⟩)] := by
  intro configTypeName
  rfl

/-! ### Claim C7 -/

/-- Claim C7: under a multi-document config type, one entity contributing
`fileA.json = {"x":1}` and `fileB.json = {"x":2}` yields, after both merges,
the single aggregate field path `x` whose per-entity value set for that entity
is `{"1","2"}`; the file paths never appear in any field path (the field-path
list is exactly `["x"]`).  Proved for every config type name. -/
theorem c7_multi_document_accumulation :
    ∀ configTypeName : String,
      analyzeMultiConfigType
          [("modA", [("fileA.json", .obj [("x", .num 1)]),
                     ("fileB.json", .obj [("x", .num 2)])])] configTypeName =
        [("x", ⟨[("modA", ["1", "2"])], ["1", "2"], .primitive⟩)] ∧
      (analyzeMultiConfigType
          [("modA", [("fileA.json", .obj [("x", .num 1)]),
                     ("fileB.json", .obj [("x", .num 2)])])] configTypeName).map
        Prod.fst = ["x"] := by
  intro configTypeName
  exact ⟨rfl, rfl⟩

/-! ### Claim C10 -/

/-- Claim C10 counterexample: for the array `[[1,2], 3]` the nested array
element does NOT contribute nothing — the scalar branch stringifies it, so
`"1,2"` appears in the array's value set alongside `"3"`. -/
theorem c10_nested_array_counterexample :
    "1,2" ∈ fieldValuesAt
      (extractFieldsFromJson (.arr [.arr [.num 1, .num 2], .num 3]) "manifest" "p") "p" ∧
    fieldValuesAt
      (extractFieldsFromJson (.arr [.arr [.num 1, .num 2], .num 3]) "manifest" "p") "p" ≠
      ["3"] := by
  exact ⟨by decide, by decide⟩

theorem extractArrObjects_skip_arr (a : List Json) (configTypeName : String) :
    ∀ (ys zs : List Json) (acc : FieldsMap),
      extractArrObjects (ys ++ .arr a :: zs) configTypeName acc =
      extractArrObjects (ys ++ zs) configTypeName acc := by
  intro ys
  induction ys with
  | nil =>
    intro zs acc
    rfl
  | cons y ys ih =>
    intro zs acc
    cases y with
    | null => exact ih zs acc
    | bool b => exact ih zs acc
    | num n => exact ih zs acc
    | str s => exact ih zs acc
    | arr a2 => exact ih zs acc
    | obj o =>
      exact ih zs (mergeItemFields acc (extractFieldsFromJson (.obj o) configTypeName ""))

theorem scalarVals_foldl_mono :
    ∀ (xs : List Json) (acc : List String) (w : String),
      w ∈ acc →
      w ∈ xs.foldl (fun acc item =>
        match item with
        | .null => acc
        | v => listInsert acc (jsString v)) acc := by
  intro xs
  induction xs with
  | nil => exact fun acc w h => h
  | cons x rest ih =>
    intro acc w h
    rw [List.foldl_cons]
    apply ih
    cases x with
    | null => exact h
    | bool b => exact mem_listInsert_iff.2 (Or.inl h)
    | num n => exact mem_listInsert_iff.2 (Or.inl h)
    | str s => exact mem_listInsert_iff.2 (Or.inl h)
    | arr a => exact mem_listInsert_iff.2 (Or.inl h)
    | obj o => exact mem_listInsert_iff.2 (Or.inl h)

theorem scalarVals_foldl_mem :
    ∀ (xs : List Json) (acc : List String) (x : Json),
      x ∈ xs → x ≠ Json.null →
      jsString x ∈ xs.foldl (fun acc item =>
        match item with
        | .null => acc
        | v => listInsert acc (jsString v)) acc := by
  intro xs
  induction xs with
  | nil =>
    intro acc x hx
    exact absurd hx (List.not_mem_nil x)
  | cons y rest ih =>
    intro acc x hx hnn
    rw [List.foldl_cons]
    rcases List.mem_cons.1 hx with heq | hx2
    · subst heq
      apply scalarVals_foldl_mono
      cases x with
      | null => exact absurd rfl hnn
      | bool b => exact mem_listInsert_iff.2 (Or.inr rfl)
      | num n => exact mem_listInsert_iff.2 (Or.inr rfl)
      | str s => exact mem_listInsert_iff.2 (Or.inr rfl)
      | arr a => exact mem_listInsert_iff.2 (Or.inr rfl)
      | obj o => exact mem_listInsert_iff.2 (Or.inr rfl)
    · exact ih _ x hx2 hnn

theorem mem_scalarVals {xs : List Json} {x : Json} (hx : x ∈ xs) (hnn : x ≠ Json.null) :
    jsString x ∈ scalarVals xs :=
  scalarVals_foldl_mem xs [] x hx hnn

/-- Claim C10 amended: for EVERY array input containing an element that is
itself an array — written `ys ++ [a-as-array] ++ zs` for arbitrary
surroundings — extraction does not throw (the full result is characterised
below) and the nested array element is classified as composite, yet skipped
during composite recursion: the merged composite fields are exactly those of
the array with the nested element removed, for every accumulator, so no field
path or value from inside it is ever emitted through that branch.  However,
whenever a scalar-or-null sibling exists, the scalar loop adds the nested
array's JavaScript string form (its elements joined by commas) to the array's
own scalar value set, so the nested array is represented there alongside the
sibling elements. -/
theorem c10_nested_array_amended :
    ∀ (ys zs a : List Json) (configTypeName fieldPath : String),
      isComposite (.arr a) = true ∧
      (∀ acc : FieldsMap,
        extractArrObjects (ys ++ .arr a :: zs) configTypeName acc =
        extractArrObjects (ys ++ zs) configTypeName acc) ∧
      extractFieldsFromJson (.arr (ys ++ .arr a :: zs)) configTypeName fieldPath =
        (if (ys ++ .arr a :: zs).any isScalarOrNull then
          alSet ((extractArrObjects (ys ++ zs) configTypeName []).foldl
              (fun m kv =>
                alSet m (if fieldPath == "" then kv.1 else fieldPath ++ "." ++ kv.1) kv.2) [])
            (if fieldPath == "" then "[root]" else fieldPath)
            ⟨[], scalarVals (ys ++ .arr a :: zs), .array⟩
        else (extractArrObjects (ys ++ zs) configTypeName []).foldl
            (fun m kv =>
              alSet m (if fieldPath == "" then kv.1 else fieldPath ++ "." ++ kv.1) kv.2) []) ∧
      ((∃ x ∈ ys ++ zs, isScalarOrNull x = true) →
        jsString (.arr a) ∈ fieldValuesAt
          (extractFieldsFromJson (.arr (ys ++ .arr a :: zs)) configTypeName fieldPath)
          (if fieldPath == "" then "[root]" else fieldPath)) := by
  intro ys zs a configTypeName fieldPath
  have hobj : (ys ++ .arr a :: zs).any isComposite = true :=
    List.any_eq_true.2 ⟨.arr a, by simp, rfl⟩
  have hne : (ys ++ .arr a :: zs).isEmpty = false := by
    cases ys <;> rfl
  have harrmem : jsString (Json.arr a) ∈ scalarVals (ys ++ .arr a :: zs) :=
    mem_scalarVals (by simp) (by simp)
  have hcond : ((ys ++ .arr a :: zs).any isComposite &&
      !(ys ++ .arr a :: zs).isEmpty) = true := by
    rw [hobj, hne]
    rfl
  have hkey : extractFieldsFromJson (.arr (ys ++ .arr a :: zs)) configTypeName fieldPath =
      (if (ys ++ .arr a :: zs).any isScalarOrNull then
        alSet ((extractArrObjects (ys ++ zs) configTypeName []).foldl
            (fun m kv =>
              alSet m (if fieldPath == "" then kv.1 else fieldPath ++ "." ++ kv.1) kv.2) [])
          (if fieldPath == "" then "[root]" else fieldPath)
          ⟨[], scalarVals (ys ++ .arr a :: zs), .array⟩
      else (extractArrObjects (ys ++ zs) configTypeName []).foldl
          (fun m kv =>
            alSet m (if fieldPath == "" then kv.1 else fieldPath ++ "." ++ kv.1) kv.2) []) := by
    simp only [extractFieldsFromJson]
    rw [if_pos hcond, extractArrObjects_skip_arr]
    by_cases hp : (ys ++ .arr a :: zs).any isScalarOrNull = true
    · rw [if_pos hp, if_pos hp]
      have hvs : (!(scalarVals (ys ++ .arr a :: zs)).isEmpty) = true := by
        cases hsv : scalarVals (ys ++ .arr a :: zs) with
        | nil =>
          rw [hsv] at harrmem
          exact absurd harrmem (List.not_mem_nil _)
        | cons v l => rfl
      rw [if_pos hvs]
    · rw [if_neg hp, if_neg hp]
  refine ⟨rfl, fun acc => extractArrObjects_skip_arr a configTypeName ys zs acc, hkey, ?_⟩
  intro hex
  have hp : (ys ++ .arr a :: zs).any isScalarOrNull = true := by
    obtain ⟨x, hx, hsx⟩ := hex
    refine List.any_eq_true.2 ⟨x, ?_, hsx⟩
    rcases List.mem_append.1 hx with h1 | h1
    · exact List.mem_append_left _ h1
    · exact List.mem_append_right _ (List.mem_cons_of_mem _ h1)
  rw [hkey, if_pos hp]
  unfold fieldValuesAt
  rw [alGet?_alSet_self]
  exact harrmem

/-- Witness for `c10_nested_array_amended` at the array `[[{"a":1}], 2]`
(nested array containing an object, with a scalar sibling): the composite
walk ignores the nested array entirely, `"[object Object]"` lands in the
scalar value set, and the full extraction result has no field path from
inside the nested array. -/
theorem c10_nested_array_amended_witness :
    (∀ acc : FieldsMap,
      extractArrObjects [.arr [.obj [("a", .num 1)]], .num 2] "manifest" acc =
      extractArrObjects [.num 2] "manifest" acc) ∧
    "[object Object]" ∈ fieldValuesAt
      (extractFieldsFromJson (.arr [.arr [.obj [("a", .num 1)]], .num 2]) "manifest" "p")
      "p" ∧
    extractFieldsFromJson (.arr [.arr [.obj [("a", .num 1)]], .num 2]) "manifest" "p" =
      [("p", ⟨[], ["[object Object]", "2"], .array⟩)] := by
  refine ⟨?_, ?_, by decide⟩
  · exact fun acc =>
      (c10_nested_array_amended [] [.num 2] [.obj [("a", .num 1)]] "manifest" "p").2.1 acc
  · exact (c10_nested_array_amended [] [.num 2] [.obj [("a", .num 1)]] "manifest" "p").2.2.2
      ⟨.num 2, List.mem_cons_self _ _, rfl⟩

/-! ### Claim C4 -/

/-- Claim C4 counterexample: the array `[null]` contains a scalar-or-null
element, yet extraction emits NO entry at the array's path: nulls are dropped
first and the entry is only created when the resulting value set is non-empty
(line 166), so "this single entry is emitted even when every scalar-or-null
element is null" is false. -/
theorem c4_array_scalars_counterexample :
    extractFieldsFromJson (.arr [.null]) "manifest" "p" = [] ∧
    alGet? (extractFieldsFromJson (.arr [.null]) "manifest" "p") "p" = none :=
  ⟨rfl, rfl⟩

theorem scalarVals_foldl_eq_nil :
    ∀ (xs : List Json) (acc : List String),
      xs.foldl (fun acc item =>
        match item with
        | .null => acc
        | v => listInsert acc (jsString v)) acc = [] →
      acc = [] ∧ ∀ x ∈ xs, x = Json.null := by
  intro xs
  induction xs with
  | nil =>
    intro acc h
    exact ⟨h, by simp⟩
  | cons x rest ih =>
    intro acc h
    rw [List.foldl_cons] at h
    cases x with
    | null =>
      obtain ⟨ha, hall⟩ := ih _ h
      refine ⟨ha, ?_⟩
      intro y hy
      rcases List.mem_cons.1 hy with rfl | hy
      · rfl
      · exact hall y hy
    | bool b => exact absurd (ih _ h).1 listInsert_ne_nil
    | num n => exact absurd (ih _ h).1 listInsert_ne_nil
    | str s => exact absurd (ih _ h).1 listInsert_ne_nil
    | arr a => exact absurd (ih _ h).1 listInsert_ne_nil
    | obj o => exact absurd (ih _ h).1 listInsert_ne_nil

theorem scalarVals_eq_nil {xs : List Json} (h : scalarVals xs = []) :
    ∀ x ∈ xs, x = Json.null :=
  (scalarVals_foldl_eq_nil xs [] h).2

/-- Claim C4 amended: for every array input with at least one scalar-or-null
element, the entry at the array's own path (or `[root]`) with kind `array` is
emitted exactly when the collected value set is non-empty; that value set is
the JavaScript string form of every non-`null` element (composite elements are
stringified too, rather than restricted to scalar elements), with `null`
elements dropped.  When every element is `null` the value set is empty and no
entry at all is emitted. -/
theorem c4_array_scalar_entry_amended :
    ∀ (xs : List Json) (configTypeName fieldPath : String),
      (∃ x ∈ xs, isScalarOrNull x = true) →
      (scalarVals xs ≠ [] →
        alGet? (extractFieldsFromJson (.arr xs) configTypeName fieldPath)
            (if fieldPath == "" then "[root]" else fieldPath) =
          some ⟨[], scalarVals xs, .array⟩) ∧
      (scalarVals xs = [] → extractFieldsFromJson (.arr xs) configTypeName fieldPath = []) := by
  intro xs configTypeName fieldPath hex
  have hprim : xs.any isScalarOrNull = true := by
    rw [List.any_eq_true]
    obtain ⟨x, hx, hsx⟩ := hex
    exact ⟨x, hx, hsx⟩
  constructor
  · intro hvs
    have hne : (scalarVals xs).isEmpty = false := by
      cases hxs : scalarVals xs with
      | nil => exact absurd hxs hvs
      | cons a l => rfl
    rw [extractFieldsFromJson]
    simp only [hprim, hne, Bool.not_false, if_true]
    exact alGet?_alSet_self _ _ _
  · intro hvs
    have hall : ∀ x ∈ xs, x = Json.null := scalarVals_eq_nil hvs
    have hobj : xs.any isComposite = false := by
      rw [List.any_eq_false]
      intro x hx
      rw [hall x hx]
      simp [isComposite]
    rw [extractFieldsFromJson]
    simp [hobj, hprim, hvs]

/-- Witness for `c4_array_scalar_entry_amended`: both branches at concrete
arrays (`[1, null]` has value set `{"1"}`; `[null, null]` emits nothing). -/
theorem c4_array_scalar_entry_amended_witness :
    alGet? (extractFieldsFromJson (.arr [.num 1, .null]) "manifest" "p") "p" =
      some ⟨[], ["1"], .array⟩ ∧
    extractFieldsFromJson (.arr [.null, .null]) "manifest" "q" = [] := by
  constructor
  · exact (c4_array_scalar_entry_amended [.num 1, .null] "manifest" "p"
      ⟨.num 1, List.mem_cons_self _ _, rfl⟩).1 (by decide)
  · exact (c4_array_scalar_entry_amended [.null, .null] "manifest" "q"
      ⟨.null, List.mem_cons_self _ _, rfl⟩).2 rfl

/-! ### Claim C5 -/

/-- Claim C5 counterexample: within one document the first kind observed does
NOT win.  Under `default-config`, the settings keys `a` (primitive `5`,
observed first) and `b` (array `[1,2]`, observed second) collapse to the same
path `settings.{settingName}`; the later sibling's `Map.set` replaces the
entry, so the recorded kind is `array`, not the first-observed `primitive` —
both in the extraction result and in the aggregate built from this single
document of a single entity. -/
theorem c5_first_kind_counterexample :
    extractFieldsFromJson (.obj [("a", .num 5)]) "default-config" "settings" =
      [("settings.{settingName}", ⟨[], ["5"], .primitive⟩)] ∧
    extractFieldsFromJson (.obj [("a", .num 5), ("b", .arr [.num 1, .num 2])])
        "default-config" "settings" =
      [("settings.{settingName}", ⟨[], ["1", "2"], .array⟩)] ∧
    (alGet? (analyzeSingleConfigType
        [("mod1", .obj [("settings", .obj [("a", .num 5), ("b", .arr [.num 1, .num 2])])])]
        "default-config") "settings.{settingName}").map FieldAnalysis.fieldType =
      some FieldType.array ∧
    FieldType.array ≠ FieldType.primitive :=
  ⟨rfl, rfl, rfl, by decide⟩

/-- Claim C5 amended: per field path, exactly one kind is recorded in the
aggregate, and once a path is present no later MERGE (a later document or a
later entity) ever revises it — `mergeFieldAnalysis` never touches
`fieldType`; the recorded kind is therefore the kind carried by the first
merged extraction result for that path.  Within a single document's
extraction, however, a later sibling observation of the same path overwrites
the entry including its kind (see the counterexample), so "first observed
during processing" is false at document level. -/
theorem c5_kind_never_revised_by_merge :
    ∀ (m : FieldsMap) (modName : String) (fields : FieldsMap) (p : String) (a : FieldAnalysis),
      alGet? m p = some a →
      (alGet? (mergeModFields m modName fields) p).map FieldAnalysis.fieldType =
        some a.fieldType := by
  intro m modName fields
  induction fields generalizing m with
  | nil =>
    intro p a h
    simp [mergeModFields, h]
  | cons kv rest ih =>
    intro p a h
    show (alGet? (mergeModFields (mergeStep m modName kv.1 kv.2) modName rest) p).map _ = _
    by_cases hp : kv.1 = p
    · subst hp
      have h2 : alGet? (mergeStep m modName kv.1 kv.2) kv.1 =
          some (mergeFieldAnalysis a kv.2 modName) := by
        unfold mergeStep
        rw [h]
        exact alGet?_alSet_self _ _ _
      rw [ih _ _ _ h2]
      rfl
    · have h2 : alGet? (mergeStep m modName kv.1 kv.2) p = some a := by
        unfold mergeStep
        rw [alGet?_alSet_ne _ _ (fun hh => hp hh.symm)]
        exact h
      exact ih _ _ _ h2

/-- Witness for `c5_kind_never_revised_by_merge`: a later merge of an
`array`-shaped observation does not revise an existing `primitive` kind. -/
theorem c5_kind_never_revised_by_merge_witness :
    (alGet? (mergeModFields [("x", ⟨[], ["1"], .primitive⟩)] "modB"
        [("x", ⟨[], ["2"], .array⟩)]) "x").map FieldAnalysis.fieldType =
      some FieldType.primitive :=
  c5_kind_never_revised_by_merge _ "modB" _ "x" ⟨[], ["1"], .primitive⟩ rfl

/-! ### Claim C2 -/

theorem mergeFieldAnalysis_invariant (C a : FieldAnalysis) (modName : String)
    (hC : ∀ v, v ∈ C.distinctValues ↔ ∃ mod vs, alGet? C.modValues mod = some vs ∧ v ∈ vs) :
    ∀ v, v ∈ (mergeFieldAnalysis C a modName).distinctValues ↔
      ∃ mod vs, alGet? (mergeFieldAnalysis C a modName).modValues mod = some vs ∧ v ∈ vs := by
  intro v
  unfold mergeFieldAnalysis
  cases hs : alGet? C.modValues modName with
  | some s =>
    simp only [hs]
    constructor
    · intro hv
      rw [mem_listUnionInto_iff] at hv
      rcases hv with hv | hv
      · obtain ⟨mod, vs, hlook, hvin⟩ := (hC v).1 hv
        by_cases hmod : mod = modName
        · subst hmod
          rw [hlook] at hs
          injection hs with hs
          subst hs
          exact ⟨mod, _, alGet?_alSet_self _ _ _, mem_listUnionInto_iff.2 (Or.inl hvin)⟩
        · exact ⟨mod, vs, by rw [alGet?_alSet_ne _ _ hmod]; exact hlook, hvin⟩
      · exact ⟨modName, _, alGet?_alSet_self _ _ _, mem_listUnionInto_iff.2 (Or.inr hv)⟩
    · rintro ⟨mod, vs, hlook, hvin⟩
      by_cases hmod : mod = modName
      · subst hmod
        rw [alGet?_alSet_self] at hlook
        injection hlook with hlook
        subst hlook
        rw [mem_listUnionInto_iff] at hvin
        rcases hvin with hvin | hvin
        · exact mem_listUnionInto_iff.2 (Or.inl ((hC v).2 ⟨mod, s, hs, hvin⟩))
        · exact mem_listUnionInto_iff.2 (Or.inr hvin)
      · rw [alGet?_alSet_ne _ _ hmod] at hlook
        exact mem_listUnionInto_iff.2 (Or.inl ((hC v).2 ⟨mod, vs, hlook, hvin⟩))
  | none =>
    simp only [hs]
    constructor
    · intro hv
      rw [mem_listUnionInto_iff] at hv
      rcases hv with hv | hv
      · obtain ⟨mod, vs, hlook, hvin⟩ := (hC v).1 hv
        by_cases hmod : mod = modName
        · subst hmod
          rw [hlook] at hs
          exact absurd hs (by simp)
        · exact ⟨mod, vs, by rw [alGet?_alSet_ne _ _ hmod]; exact hlook, hvin⟩
      · exact ⟨modName, _, alGet?_alSet_self _ _ _, mem_listUnionInto_iff.2 (Or.inr hv)⟩
    · rintro ⟨mod, vs, hlook, hvin⟩
      by_cases hmod : mod = modName
      · subst hmod
        rw [alGet?_alSet_self] at hlook
        injection hlook with hlook
        subst hlook
        rw [mem_listUnionInto_iff] at hvin
        rcases hvin with hvin | hvin
        · exact absurd hvin (List.not_mem_nil v)
        · exact mem_listUnionInto_iff.2 (Or.inr hvin)
      · rw [alGet?_alSet_ne _ _ hmod] at hlook
        exact mem_listUnionInto_iff.2 (Or.inl ((hC v).2 ⟨mod, vs, hlook, hvin⟩))

theorem unionInvariant_mergeStep {m : FieldsMap} (h : UnionInvariant m)
    (modName p : String) (a : FieldAnalysis) : UnionInvariant (mergeStep m modName p a) := by
  intro p2 c2 hc2 v
  unfold mergeStep at hc2
  by_cases hp : p2 = p
  · subst hp
    rw [alGet?_alSet_self] at hc2
    injection hc2 with hc2
    subst hc2
    cases hm : alGet? m p2 with
    | some c =>
      simp only [hm]
      exact mergeFieldAnalysis_invariant c a modName (fun w => h p2 c hm w) v
    | none =>
      simp only [hm]
      refine mergeFieldAnalysis_invariant ⟨[], [], a.fieldType⟩ a modName ?_ v
      intro w
      constructor
      · intro hw
        exact absurd hw (List.not_mem_nil w)
      · rintro ⟨mod, vs, hlook, _⟩
        simp [alGet?] at hlook
  · rw [alGet?_alSet_ne _ _ hp] at hc2
    exact h p2 c2 hc2 v

theorem unionInvariant_mergeModFields {m : FieldsMap} (h : UnionInvariant m)
    (modName : String) (fields : FieldsMap) :
    UnionInvariant (mergeModFields m modName fields) := by
  induction fields generalizing m with
  | nil => exact h
  | cons kv rest ih =>
    show UnionInvariant (mergeModFields (mergeStep m modName kv.1 kv.2) modName rest)
    exact ih (unionInvariant_mergeStep h modName kv.1 kv.2)

theorem unionInvariant_singleFold :
    ∀ (configStore : List (String × Json)) (configTypeName : String) (m : FieldsMap),
      UnionInvariant m →
      UnionInvariant (configStore.foldl (fun m kv =>
        if jsTruthy kv.2 then
          mergeModFields m kv.1 (extractFieldsFromJson kv.2 configTypeName "")
        else m) m) := by
  intro configStore configTypeName
  induction configStore with
  | nil => exact fun m h => h
  | cons kv rest ih =>
    intro m h
    rw [List.foldl_cons]
    apply ih
    by_cases ht : jsTruthy kv.2 = true
    · rw [if_pos ht]
      exact unionInvariant_mergeModFields h _ _
    · rw [if_neg ht]
      exact h

theorem unionInvariant_filesFold :
    ∀ (files : List (String × Json)) (configTypeName modName : String) (m : FieldsMap),
      UnionInvariant m →
      UnionInvariant (files.foldl (fun m2 fileEntry =>
        if jsTruthy fileEntry.2 then
          mergeModFields m2 modName (extractFieldsFromJson fileEntry.2 configTypeName "")
        else m2) m) := by
  intro files configTypeName modName
  induction files with
  | nil => exact fun m h => h
  | cons fe rest ih =>
    intro m h
    rw [List.foldl_cons]
    apply ih
    by_cases ht : jsTruthy fe.2 = true
    · rw [if_pos ht]
      exact unionInvariant_mergeModFields h _ _
    · rw [if_neg ht]
      exact h

theorem unionInvariant_stepsFold :
    ∀ (steps : List (String × String × FieldAnalysis)) (m : FieldsMap), UnionInvariant m →
      UnionInvariant (steps.foldl (fun m st => mergeStep m st.1 st.2.1 st.2.2) m) := by
  intro steps
  induction steps with
  | nil => exact fun m h => h
  | cons st rest ih =>
    intro m h
    rw [List.foldl_cons]
    exact ih _ (unionInvariant_mergeStep h st.1 st.2.1 st.2.2)

theorem unionInvariant_multiFold :
    ∀ (configStore : List (String × List (String × Json))) (configTypeName : String)
      (m : FieldsMap), UnionInvariant m →
      UnionInvariant (configStore.foldl (fun m modEntry =>
        modEntry.2.foldl (fun m2 fileEntry =>
          if jsTruthy fileEntry.2 then
            mergeModFields m2 modEntry.1 (extractFieldsFromJson fileEntry.2 configTypeName "")
          else m2) m) m) := by
  intro configStore configTypeName
  induction configStore with
  | nil => exact fun m h => h
  | cons modEntry rest ih =>
    intro m h
    rw [List.foldl_cons]
    exact ih _ (unionInvariant_filesFold modEntry.2 configTypeName modEntry.1 m h)

/-- Claim C2: for every field path of an aggregate, after EVERY merge call
(not only at the end of processing), `distinctValues` (the spec's `allValues`)
equals the union over all contributing entities of their per-entity value
sets.  Stated three ways: for an arbitrary finite sequence of merge calls
applied to the empty aggregate (any intermediate state of any run is such a
fold, so this is the "at every point" form), and for the two drivers'
finished aggregates over arbitrary document stores. -/
theorem c2_union_invariant :
    (∀ steps : List (String × String × FieldAnalysis),
      UnionInvariant (steps.foldl (fun m st => mergeStep m st.1 st.2.1 st.2.2) [])) ∧
    (∀ (configStore : List (String × Json)) (configTypeName : String),
      UnionInvariant (analyzeSingleConfigType configStore configTypeName)) ∧
    (∀ (configStore : List (String × List (String × Json))) (configTypeName : String),
      UnionInvariant (analyzeMultiConfigType configStore configTypeName)) := by
  have hempty : UnionInvariant [] := by
    intro p a h v
    simp [alGet?] at h
  refine ⟨?_, ?_, ?_⟩
  · intro steps
    exact unionInvariant_stepsFold steps [] hempty
  · intro configStore configTypeName
    exact unionInvariant_singleFold configStore configTypeName [] hempty
  · intro configStore configTypeName
    exact unionInvariant_multiFold configStore configTypeName [] hempty

/-- Witness for `c2_union_invariant` at one concrete merge: after merging
value `"1"` for `modA` at path `x` into the empty aggregate, `"1"` lies in
`distinctValues` iff some mod's set holds it. -/
theorem c2_union_invariant_witness :
    "1" ∈ (FieldAnalysis.mk [("modA", ["1"])] ["1"] .primitive).distinctValues ↔
      ∃ mod vs,
        alGet? (FieldAnalysis.mk [("modA", ["1"])] ["1"] .primitive).modValues mod = some vs ∧
        "1" ∈ vs :=
  c2_union_invariant.1 [("modA", "x", ⟨[], ["1"], .primitive⟩)] "x" _ rfl "1"

/-! ### Claim C8 -/

theorem mergeFieldAnalysis_saturated {C a : FieldAnalysis} {modName : String} {s : List String}
    (hs : alGet? C.modValues modName = some s)
    (hsub : ∀ v ∈ a.distinctValues, v ∈ s)
    (hsubd : ∀ v ∈ a.distinctValues, v ∈ C.distinctValues) :
    mergeFieldAnalysis C a modName = C := by
  unfold mergeFieldAnalysis
  simp only [hs]
  rw [listUnionInto_eq_of_subset hsub, listUnionInto_eq_of_subset hsubd,
    alSet_eq_of_alGet? hs]

theorem mergeStep_saturated {m : FieldsMap} {modName p : String} {a : FieldAnalysis}
    (h : Saturated m modName p a) : mergeStep m modName p a = m := by
  obtain ⟨c, hc, ⟨s, hs, hsub⟩, hsubd⟩ := h
  unfold mergeStep
  simp only [hc]
  rw [mergeFieldAnalysis_saturated hs hsub hsubd]
  exact alSet_eq_of_alGet? hc

theorem mergeFieldAnalysis_absorbs (C a : FieldAnalysis) (modName : String) :
    (∃ s, alGet? (mergeFieldAnalysis C a modName).modValues modName = some s ∧
      ∀ v ∈ a.distinctValues, v ∈ s) ∧
    ∀ v ∈ a.distinctValues, v ∈ (mergeFieldAnalysis C a modName).distinctValues := by
  constructor
  · refine ⟨listUnionInto (match alGet? C.modValues modName with
        | some s => s
        | none => []) a.distinctValues, ?_, ?_⟩
    · show alGet? (alSet C.modValues modName _) modName = _
      exact alGet?_alSet_self _ _ _
    · intro v hv
      exact mem_listUnionInto_iff.2 (Or.inr hv)
  · intro v hv
    show v ∈ listUnionInto C.distinctValues a.distinctValues
    exact mem_listUnionInto_iff.2 (Or.inr hv)

theorem mergeStep_saturates (m : FieldsMap) (modName p : String) (a : FieldAnalysis) :
    Saturated (mergeStep m modName p a) modName p a := by
  unfold mergeStep
  exact ⟨_, alGet?_alSet_self _ _ _, (mergeFieldAnalysis_absorbs _ a modName).1,
    (mergeFieldAnalysis_absorbs _ a modName).2⟩

theorem saturated_mergeStep {m : FieldsMap} {modName p : String} {a : FieldAnalysis}
    (h : Saturated m modName p a) (modName2 p2 : String) (a2 : FieldAnalysis) :
    Saturated (mergeStep m modName2 p2 a2) modName p a := by
  obtain ⟨c, hc, ⟨s, hs, hsub⟩, hsubd⟩ := h
  by_cases hp : p2 = p
  · subst hp
    unfold mergeStep
    simp only [hc]
    by_cases hmod : modName2 = modName
    · subst hmod
      have hmv : (mergeFieldAnalysis c a2 modName2).modValues =
          alSet c.modValues modName2 (listUnionInto s a2.distinctValues) := by
        unfold mergeFieldAnalysis
        simp only [hs]
      refine ⟨_, alGet?_alSet_self _ _ _, ⟨listUnionInto s a2.distinctValues, ?_, ?_⟩, ?_⟩
      · rw [hmv]
        exact alGet?_alSet_self _ _ _
      · intro v hv
        exact mem_listUnionInto_iff.2 (Or.inl (hsub v hv))
      · intro v hv
        show v ∈ listUnionInto c.distinctValues a2.distinctValues
        exact mem_listUnionInto_iff.2 (Or.inl (hsubd v hv))
    · refine ⟨_, alGet?_alSet_self _ _ _, ⟨s, ?_, hsub⟩, ?_⟩
      · show alGet? (alSet c.modValues modName2 _) modName = some s
        rw [alGet?_alSet_ne _ _ (fun hh => hmod hh.symm)]
        exact hs
      · intro v hv
        show v ∈ listUnionInto c.distinctValues a2.distinctValues
        exact mem_listUnionInto_iff.2 (Or.inl (hsubd v hv))
  · unfold mergeStep
    refine ⟨c, ?_, ⟨s, hs, hsub⟩, hsubd⟩
    rw [alGet?_alSet_ne _ _ (fun hh => hp hh.symm)]
    exact hc

theorem saturated_mergeModFields {m : FieldsMap} {modName p : String} {a : FieldAnalysis}
    (h : Saturated m modName p a) (modName2 : String) (fields : FieldsMap) :
    Saturated (mergeModFields m modName2 fields) modName p a := by
  induction fields generalizing m with
  | nil => exact h
  | cons kv rest ih =>
    show Saturated (mergeModFields (mergeStep m modName2 kv.1 kv.2) modName2 rest) modName p a
    exact ih (saturated_mergeStep h modName2 kv.1 kv.2)

theorem mergeModFields_saturates (m : FieldsMap) (modName : String) (fields : FieldsMap) :
    ∀ e ∈ fields, Saturated (mergeModFields m modName fields) modName e.1 e.2 := by
  induction fields generalizing m with
  | nil =>
    intro e he
    exact absurd he (List.not_mem_nil e)
  | cons kv rest ih =>
    intro e he
    rcases List.mem_cons.1 he with heq | he
    · subst heq
      show Saturated (mergeModFields (mergeStep m modName e.1 e.2) modName rest) modName e.1 e.2
      exact saturated_mergeModFields (mergeStep_saturates m modName e.1 e.2) modName rest
    · exact ih (mergeStep m modName kv.1 kv.2) e he

theorem mergeModFields_of_saturated :
    ∀ (fields m : FieldsMap) (modName : String),
      (∀ e ∈ fields, Saturated m modName e.1 e.2) →
      mergeModFields m modName fields = m := by
  intro fields
  induction fields with
  | nil =>
    intro m modName h
    rfl
  | cons kv rest ih =>
    intro m modName h
    show mergeModFields (mergeStep m modName kv.1 kv.2) modName rest = m
    rw [mergeStep_saturated (h kv (List.mem_cons_self _ _))]
    exact ih m modName fun e he => h e (List.mem_cons_of_mem _ he)

/-- Claim C8: merging is idempotent.  For every aggregate state, entity id and
extracted result, merging the same extracted result for the same entity a
second time leaves the aggregate exactly equal (every field's kind, per-mod
value sets, and `distinctValues` unchanged) — the sets absorb duplicates and
`Map.set` of an unchanged value is the identity. -/
theorem c8_merge_idempotent :
    ∀ (aggregate : FieldsMap) (modName : String) (extracted : FieldsMap),
      mergeModFields (mergeModFields aggregate modName extracted) modName extracted =
        mergeModFields aggregate modName extracted := by
  intro aggregate modName extracted
  exact mergeModFields_of_saturated extracted _ modName
    (mergeModFields_saturates aggregate modName extracted)

/-! ### Claim C9 -/

theorem foldl_preserve {β σ : Type} (P : σ → Prop) (f : σ → β → σ)
    (hstep : ∀ s b, P s → P (f s b)) :
    ∀ (l : List β) (s : σ), P s → P (l.foldl f s) := by
  intro l
  induction l with
  | nil => exact fun s h => h
  | cons b rest ih =>
    intro s h
    rw [List.foldl_cons]
    exact ih _ (hstep s b h)

theorem perModRaw_step_sorted (fp : String) (ft : FieldType)
    (acc2 : List (String × List PerModFieldInfo)) (modEntry : String × List String)
    (h : ∀ e ∈ acc2, ∀ r ∈ e.2, List.Sorted strLeRel r.values) :
    ∀ e ∈ alSet acc2 modEntry.1
        ((match alGet? acc2 modEntry.1 with
          | some rows => rows
          | none => []) ++
         [{ fieldPath := fp, fieldType := ft, values := sortStrings modEntry.2 }]),
      ∀ r ∈ e.2, List.Sorted strLeRel r.values := by
  intro e he r hr
  rcases mem_alSet he with he2 | he2
  · exact h e he2 r hr
  · subst he2
    rcases List.mem_append.1 hr with hr2 | hr2
    · cases hg : alGet? acc2 modEntry.1 with
      | some rows =>
        rw [hg] at hr2
        exact h _ (alGet?_mem hg) r hr2
      | none =>
        rw [hg] at hr2
        exact absurd hr2 (List.not_mem_nil r)
    · have hreq : r = { fieldPath := fp, fieldType := ft, values := sortStrings modEntry.2 } := by
        simpa using hr2
      subst hreq
      exact sorted_sortStrings _

theorem buildPerModSummaries_sorted (m : FieldsMap) :
    PerModSummariesSorted (buildPerModSummaries m) := by
  intro e he
  unfold buildPerModSummaries at he
  rw [List.mem_map] at he
  obtain ⟨me, hme, rfl⟩ := he
  constructor
  · exact List.sorted_insertionSort rowLeRel me.2
  · intro r hr
    have hr2 : r ∈ me.2 := (List.mem_insertionSort rowLeRel).1 hr
    have hraw := foldl_preserve
      (fun acc => ∀ e2 ∈ acc, ∀ r2 ∈ e2.2, List.Sorted strLeRel r2.values)
      (fun acc fieldEntry =>
        fieldEntry.2.modValues.foldl (fun acc2 modEntry =>
          let cur := match alGet? acc2 modEntry.1 with
            | some rows => rows
            | none => []
          alSet acc2 modEntry.1
            (cur ++ [{ fieldPath := fieldEntry.1,
                       fieldType := fieldEntry.2.fieldType,
                       values := sortStrings modEntry.2 }])) acc)
      (fun acc fieldEntry hacc =>
        foldl_preserve
          (fun acc => ∀ e2 ∈ acc, ∀ r2 ∈ e2.2, List.Sorted strLeRel r2.values)
          _
          (fun acc2 modEntry h2 =>
            perModRaw_step_sorted fieldEntry.1 fieldEntry.2.fieldType acc2 modEntry h2)
          fieldEntry.2.modValues acc hacc)
      m [] (by simp)
    exact hraw me hme r hr2

theorem buildPerFieldSummaries_sorted (m : FieldsMap) :
    PerFieldSummariesSorted (buildPerFieldSummaries m) := by
  intro e he
  unfold buildPerFieldSummaries at he
  rw [List.mem_map] at he
  obtain ⟨fe, hfe, rfl⟩ := he
  refine ⟨List.sorted_insertionSort modInfoLeRel _, sorted_sortStrings _, ?_⟩
  intro mi hmi
  have hmem : mi ∈ (fe.2.modValues.map fun modEntry =>
      ({ modName := modEntry.1, values := sortStrings modEntry.2 } : PerFieldModInfo)) :=
    (List.mem_insertionSort modInfoLeRel).1 hmi
  rw [List.mem_map] at hmem
  obtain ⟨me, _, rfl⟩ := hmem
  exact sorted_sortStrings _

/-- Claim C9: the engine is deterministic — running the whole pipeline
(extract, merge, build summaries) twice on the same document store produces
identical persisted per-mod and per-field summaries (the pipelines are pure
functions of the store, so the two runs are literally equal) — and the
persisted summaries are ordered as claimed: each mod's field rows sorted by
field path, each field's per-mod rows sorted by mod name, and every value
list sorted.  Stated for both the single- and multi-document pipelines over
arbitrary stores. -/
theorem c9_determinism_and_sorted_output :
    ∀ (configStore : List (String × Json))
      (multiStore : List (String × List (String × Json))) (configTypeName : String),
      runSinglePipeline configStore configTypeName =
        runSinglePipeline configStore configTypeName ∧
      runMultiPipeline multiStore configTypeName =
        runMultiPipeline multiStore configTypeName ∧
      PerModSummariesSorted (runSinglePipeline configStore configTypeName).1 ∧
      PerFieldSummariesSorted (runSinglePipeline configStore configTypeName).2 ∧
      PerModSummariesSorted (runMultiPipeline multiStore configTypeName).1 ∧
      PerFieldSummariesSorted (runMultiPipeline multiStore configTypeName).2 := by
  intro configStore multiStore configTypeName
  exact ⟨rfl, rfl, buildPerModSummaries_sorted _, buildPerFieldSummaries_sorted _,
    buildPerModSummaries_sorted _, buildPerFieldSummaries_sorted _⟩

/-- Witness for `c9_determinism_and_sorted_output`: the per-mod rows produced
for the document `{"b": 2, "a": 1}` come out sorted by field path. -/
theorem c9_determinism_and_sorted_output_witness :
    List.Sorted rowLeRel
      [{ fieldPath := "a", fieldType := .primitive, values := ["1"] },
       { fieldPath := "b", fieldType := .primitive, values := ["2"] }] := by
  have h := (c9_determinism_and_sorted_output
    [("modA", .obj [("b", .num 2), ("a", .num 1)])] [] "manifest").2.2.1
  exact (h ("modA",
    [{ fieldPath := "a", fieldType := .primitive, values := ["1"] },
     { fieldPath := "b", fieldType := .primitive, values := ["2"] }]) (by decide)).1

end ConfigCrawler
